import Mathlib

/-!
# Verification of the SmartAIMap marker-clustering routine

Shallow embedding of the greedy marker-clustering computation from
`src/App.tsx` (the `clusters` memo, together with the `CLUSTER_THRESHOLD`
constant and the construction of `historyMarkers` from the history list),
and of the marker / history-entry record types from `src/types.ts`.

JavaScript numbers are modelled by `JSNum`: either a finite rational or
`NaN`.  Arithmetic on `JSNum` propagates `NaN`, and every ordered
comparison involving `NaN` is false, matching IEEE/JS semantics for the
operations the routine performs (subtraction, squaring, addition,
square root, `<`).  The source compares `Math.sqrt(dx*dx + dy*dy) <
CLUSTER_THRESHOLD`; since the radicand is a sum of squares (hence
nonnegative when finite), this comparison is equivalent to
`0 < threshold ∧ dx*dx + dy*dy < threshold²`, which is how `distLt`
states it without leaving the rationals.  The lemma `sqrt_lt_iff_sq_lt`
below proves this equivalence over the reals.

The JS `Set<string>` named `used` is modelled by a `List String` tested
with `List.contains`; the source only ever calls `has` and `add` on it,
and `add` is only reached under a failed `has`, so list membership is an
exact model.
-/

namespace SmartAIMap

/-- A JavaScript number, restricted to the values the clustering code can
produce: a finite rational or `NaN`.  (The routine performs no division
and no overflow-scale arithmetic, so infinities never arise from finite
inputs; a `NaN` input stays `NaN` through every operation.) -/
inductive JSNum where
  | num (q : ℚ)
  | nan
  deriving DecidableEq, Repr

/-- JS subtraction on the modelled numbers: `NaN` propagates. -/
def JSNum.sub : JSNum → JSNum → JSNum
  | .num a, .num b => .num (a - b)
  | _, _ => .nan

/-- JS multiplication on the modelled numbers: `NaN` propagates. -/
def JSNum.mul : JSNum → JSNum → JSNum
  | .num a, .num b => .num (a * b)
  | _, _ => .nan

/-- JS addition on the modelled numbers: `NaN` propagates. -/
def JSNum.add : JSNum → JSNum → JSNum
  | .num a, .num b => .num (a + b)
  | _, _ => .nan

/-- The `MarkerData` record of `src/types.ts`.  The `type` field is the
closed union `'History' | 'Anomaly' | 'Sensor' | 'POI'`, kept as a string
as in the source; `thumbnailUrl` is optional there and optional here. -/
structure MarkerData where
  id : String
  label : String
  description : String
  type : String
  x : JSNum
  y : JSNum
  thumbnailUrl : Option String
  deriving DecidableEq, Repr

/-- The `HistoryEntry` record of `src/types.ts` (the fields the clustering
caller reads). -/
structure HistoryEntry where
  id : String
  location : String
  timestamp : String
  imageUrl : Option String
  deriving DecidableEq, Repr

/-- `const CLUSTER_THRESHOLD = 12` from `src/App.tsx`. -/
def CLUSTER_THRESHOLD : ℚ := 12

/-- The squared Euclidean distance
`(m1.x - m2.x)² + (m1.y - m2.y)²` that the source feeds to `Math.sqrt`:
`Math.pow(m1.x - m2.x, 2) + Math.pow(m1.y - m2.y, 2)`. -/
def distSq (m1 m2 : MarkerData) : JSNum :=
  ((m1.x.sub m2.x).mul (m1.x.sub m2.x)).add ((m1.y.sub m2.y).mul (m1.y.sub m2.y))

/-- The source's test `Math.sqrt(distSq m1 m2) < t`.  For a `NaN`
radicand the square root is `NaN` and the comparison is false.  For a
finite radicand `d` — necessarily a sum of two rational squares, hence
nonnegative — `Math.sqrt d < t` holds iff `0 < t ∧ d < t * t`
(see `sqrt_lt_iff_sq_lt`), which is how we state it over `ℚ`. -/
def distLt (t : ℚ) (m1 m2 : MarkerData) : Bool :=
  match distSq m1 m2 with
  | .nan => false
  | .num d => decide (0 < t) && decide (d < t * t)

/-- The inner `historyMarkers.forEach((m2) => ...)` pass of the routine:
starting from the group `g` (initially `[m1]`) and used-set `u`
(initially `used` with `m1.id` added), scan the whole marker list in
order; a marker whose id is not yet used and whose distance to the
anchor `m1` is below the threshold is appended to the group and its id
added to the used-set. -/
def innerPass (t : ℚ) (m1 : MarkerData) :
    List MarkerData → List MarkerData → List String → List MarkerData × List String
  | [], g, u => (g, u)
  | m2 :: rest, g, u =>
    if u.contains m2.id then innerPass t m1 rest g u
    else if distLt t m1 m2 then innerPass t m1 rest (g ++ [m2]) (m2.id :: u)
    else innerPass t m1 rest g u

/-- The outer `historyMarkers.forEach((m1) => ...)` pass: walk the list in
order; an already-used marker is skipped, otherwise it anchors a new
group built by `innerPass` over the whole list `all`, and that group is
appended to the output. -/
def clustersAux (all : List MarkerData) (t : ℚ) :
    List MarkerData → List String → List (List MarkerData)
  | [], _ => []
  | m1 :: rest, used =>
    if used.contains m1.id then clustersAux all t rest used
    else
      let p := innerPass t m1 all [m1] (m1.id :: used)
      p.1 :: clustersAux all t rest p.2

/-- The clustering routine of `src/App.tsx` (`result`/`used` loop inside
the `clusters` memo), abstracted over the marker list and the threshold
as the spec's `cluster(markers, thresholdDistance)` interface. -/
def clusters (markers : List MarkerData) (t : ℚ) : List (List MarkerData) :=
  clustersAux markers t markers []

/-- Instrumented variant of `clustersAux` that records, next to each
produced group, the contents of the used-set at the moment the group's
anchor was reached by the outer pass.  Same recursion as `clustersAux`;
used to state claims about "the markers already claimed at the time a
marker was processed". -/
def clustersAuxTr (all : List MarkerData) (t : ℚ) :
    List MarkerData → List String → List (List MarkerData × List String)
  | [], _ => []
  | m1 :: rest, used =>
    if used.contains m1.id then clustersAuxTr all t rest used
    else
      let p := innerPass t m1 all [m1] (m1.id :: used)
      (p.1, used) :: clustersAuxTr all t rest p.2

/-- `clusters` together with, for each group, the used-set observed when
its anchor was reached. -/
def clustersWithUsed (markers : List MarkerData) (t : ℚ) :
    List (List MarkerData × List String) :=
  clustersAuxTr markers t markers []

/-- Convenience constructor for markers in examples. -/
def mk (i : String) (x y : JSNum) : MarkerData :=
  ⟨i, "", "", "History", x, y, none⟩

/-- The claiming condition of the inner pass as a single predicate:
the candidate marker is not yet used and lies within the threshold of
the anchor. -/
def freshNear (t : ℚ) (m1 : MarkerData) (u : List String) (m2 : MarkerData) : Bool :=
  !(u.contains m2.id) && distLt t m1 m2

/-- The marker list the UI layer builds inside the clusters memo of
`src/App.tsx`: `history.slice(1, 11).map((entry, idx) => ...)`.  The
calls `Math.sin(idx)` and `Math.cos(idx)` are modelled by two arbitrary
rational-valued functions `sinF`, `cosF` (their finite values never
matter to any claim below); `(idx * 25) % 80` is natural-number
remainder, as in JS for nonnegative operands. -/
def historyMarkers (sinF cosF : ℕ → ℚ) (history : List HistoryEntry) : List MarkerData :=
  ((history.drop 1).take 10).mapIdx (fun idx entry =>
    { id := entry.id
      label := "Echo: " ++ entry.location
      description := "Temporal fracture detected from RAI capture at " ++ entry.timestamp ++
        ". Restore this timeline to revisit coordinates."
      type := "History"
      x := .num (10 + (((idx * 25) % 80 : ℕ) : ℚ) + sinF idx * 8)
      y := .num (40 + cosF idx * 20)
      thumbnailUrl := entry.imageUrl })

/-- The complete clusters memo of `src/App.tsx`: an empty result while
loading or with at most one history entry, otherwise the clustering of
the constructed history markers at `CLUSTER_THRESHOLD`. -/
def clustersMemo (loading imageLoading : Bool) (sinF cosF : ℕ → ℚ)
    (history : List HistoryEntry) : List (List MarkerData) :=
  if loading || imageLoading || history.length ≤ 1 then []
  else clusters (historyMarkers sinF cosF history) CLUSTER_THRESHOLD

def exA : MarkerData := mk "a" (.num 0) (.num 0)

def exB : MarkerData := mk "b" (.num 10) (.num 0)

def exC : MarkerData := mk "c" (.num 20) (.num 0)

def dupA : MarkerData := mk "a" (.num 0) (.num 0)

def dupB : MarkerData := mk "a" (.num 50) (.num 50)

def nanB : MarkerData := mk "a" .nan (.num 0)

def wN : MarkerData := mk "n" .nan (.num 0)

def cxX : MarkerData := mk "x" (.num 0) (.num 0)

def cxA : MarkerData := mk "a" (.num 50) (.num 50)

def cxB : MarkerData := mk "a" (.num 5) (.num 0)

theorem innerPass_nil (t : ℚ) (m1 : MarkerData) (g : List MarkerData) (u : List String) :
    innerPass t m1 [] g u = (g, u) := rfl

theorem innerPass_cons (t : ℚ) (m1 m2 : MarkerData) (rest g : List MarkerData) (u : List String) :
    innerPass t m1 (m2 :: rest) g u =
      if m2.id ∈ u then innerPass t m1 rest g u
      else if distLt t m1 m2 = true then innerPass t m1 rest (g ++ [m2]) (m2.id :: u)
      else innerPass t m1 rest g u := by
  simp [innerPass]

theorem clustersAux_nil (all : List MarkerData) (t : ℚ) (used : List String) :
    clustersAux all t [] used = [] := rfl

theorem clustersAux_cons (all : List MarkerData) (t : ℚ) (m1 : MarkerData)
    (rest : List MarkerData) (used : List String) :
    clustersAux all t (m1 :: rest) used =
      if m1.id ∈ used then clustersAux all t rest used
      else
        (innerPass t m1 all [m1] (m1.id :: used)).1 ::
          clustersAux all t rest (innerPass t m1 all [m1] (m1.id :: used)).2 := by
  simp [clustersAux]

theorem clustersAuxTr_nil (all : List MarkerData) (t : ℚ) (used : List String) :
    clustersAuxTr all t [] used = [] := rfl

theorem clustersAuxTr_cons (all : List MarkerData) (t : ℚ) (m1 : MarkerData)
    (rest : List MarkerData) (used : List String) :
    clustersAuxTr all t (m1 :: rest) used =
      if m1.id ∈ used then clustersAuxTr all t rest used
      else
        ((innerPass t m1 all [m1] (m1.id :: used)).1, used) ::
          clustersAuxTr all t rest (innerPass t m1 all [m1] (m1.id :: used)).2 := by
  simp [clustersAuxTr]

theorem innerPass_shape (t : ℚ) (m1 : MarkerData) :
    ∀ (l g : List MarkerData) (u : List String),
      ∃ ex : List MarkerData, (innerPass t m1 l g u).1 = g ++ ex ∧
        ∀ m2 ∈ ex, m2 ∈ l ∧ distLt t m1 m2 = true := by
  intro l
  induction l with
  | nil => intro g u; exact ⟨[], by simp [innerPass_nil], by simp⟩
  | cons m2 rest ih =>
    intro g u
    rw [innerPass_cons]
    by_cases h1 : m2.id ∈ u
    · rw [if_pos h1]
      obtain ⟨ex, hex, hall⟩ := ih g u
      exact ⟨ex, hex, fun m hm => ⟨List.mem_cons_of_mem _ (hall m hm).1, (hall m hm).2⟩⟩
    · rw [if_neg h1]
      by_cases h2 : distLt t m1 m2 = true
      · rw [if_pos h2]
        obtain ⟨ex, hex, hall⟩ := ih (g ++ [m2]) (m2.id :: u)
        refine ⟨m2 :: ex, by simpa [List.append_assoc] using hex, ?_⟩
        intro m hm
        rcases List.mem_cons.mp hm with rfl | hm
        · exact ⟨List.mem_cons_self _ _, h2⟩
        · exact ⟨List.mem_cons_of_mem _ ((hall m hm).1), (hall m hm).2⟩
      · rw [if_neg h2]
        obtain ⟨ex, hex, hall⟩ := ih g u
        exact ⟨ex, hex, fun m hm => ⟨List.mem_cons_of_mem _ (hall m hm).1, (hall m hm).2⟩⟩

theorem innerPass_used_mono (t : ℚ) (m1 : MarkerData) :
    ∀ (l g : List MarkerData) (u : List String) (s : String),
      s ∈ u → s ∈ (innerPass t m1 l g u).2 := by
  intro l
  induction l with
  | nil => intro g u s hs; simpa [innerPass_nil] using hs
  | cons m2 rest ih =>
    intro g u s hs
    rw [innerPass_cons]
    by_cases h1 : m2.id ∈ u
    · rw [if_pos h1]; exact ih g u s hs
    · rw [if_neg h1]
      by_cases h2 : distLt t m1 m2 = true
      · rw [if_pos h2]; exact ih _ _ s (List.mem_cons_of_mem _ hs)
      · rw [if_neg h2]; exact ih g u s hs

theorem innerPass_used_src (t : ℚ) (m1 : MarkerData) :
    ∀ (l g : List MarkerData) (u : List String) (s : String),
      s ∈ (innerPass t m1 l g u).2 →
        s ∈ u ∨ ∃ m2 ∈ l, m2.id = s ∧ distLt t m1 m2 = true := by
  intro l
  induction l with
  | nil => intro g u s hs; exact Or.inl (by simpa [innerPass_nil] using hs)
  | cons m2 rest ih =>
    intro g u s hs
    rw [innerPass_cons] at hs
    by_cases h1 : m2.id ∈ u
    · rw [if_pos h1] at hs
      rcases ih g u s hs with h | ⟨m, hm, he, hd⟩
      · exact Or.inl h
      · exact Or.inr ⟨m, List.mem_cons_of_mem _ hm, he, hd⟩
    · rw [if_neg h1] at hs
      by_cases h2 : distLt t m1 m2 = true
      · rw [if_pos h2] at hs
        rcases ih _ _ s hs with h | ⟨m, hm, he, hd⟩
        · rcases List.mem_cons.mp h with rfl | h
          · exact Or.inr ⟨m2, List.mem_cons_self _ _, rfl, h2⟩
          · exact Or.inl h
        · exact Or.inr ⟨m, List.mem_cons_of_mem _ hm, he, hd⟩
      · rw [if_neg h2] at hs
        rcases ih g u s hs with h | ⟨m, hm, he, hd⟩
        · exact Or.inl h
        · exact Or.inr ⟨m, List.mem_cons_of_mem _ hm, he, hd⟩

theorem innerPass_no_claim (t : ℚ) (m1 : MarkerData) :
    ∀ (l g : List MarkerData) (u : List String),
      (∀ m2 ∈ l, distLt t m1 m2 = false) → innerPass t m1 l g u = (g, u) := by
  intro l
  induction l with
  | nil => intro g u _; exact innerPass_nil t m1 g u
  | cons m2 rest ih =>
    intro g u h
    have h2 : distLt t m1 m2 = false := h m2 (List.mem_cons_self _ _)
    rw [innerPass_cons]
    by_cases h1 : m2.id ∈ u
    · rw [if_pos h1]; exact ih g u (fun m hm => h m (List.mem_cons_of_mem _ hm))
    · rw [if_neg h1, if_neg (by simp [h2])]
      exact ih g u (fun m hm => h m (List.mem_cons_of_mem _ hm))

theorem innerPass_len_iff (t : ℚ) (m1 : MarkerData) :
    ∀ (l g : List MarkerData) (u : List String),
      ((innerPass t m1 l g u).1.length = g.length ↔
        ∀ m2 ∈ l, m2.id ∈ u ∨ distLt t m1 m2 = false) := by
  intro l
  induction l with
  | nil => intro g u; simp [innerPass_nil]
  | cons m2 rest ih =>
    intro g u
    rw [innerPass_cons]
    by_cases h1 : m2.id ∈ u
    · rw [if_pos h1]
      rw [ih g u]
      constructor
      · intro h m hm
        rcases List.mem_cons.mp hm with rfl | hm
        · exact Or.inl h1
        · exact h m hm
      · intro h m hm
        exact h m (List.mem_cons_of_mem _ hm)
    · rw [if_neg h1]
      by_cases h2 : distLt t m1 m2 = true
      · rw [if_pos h2]
        constructor
        · intro h
          obtain ⟨ex, hex, -⟩ := innerPass_shape t m1 rest (g ++ [m2]) (m2.id :: u)
          rw [hex] at h
          simp [List.length_append] at h
        · intro h
          rcases h m2 (List.mem_cons_self _ _) with h | h
          · exact absurd h h1
          · rw [h2] at h; cases h
      · rw [if_neg h2]
        rw [ih g u]
        constructor
        · intro h m hm
          rcases List.mem_cons.mp hm with rfl | hm
          · exact Or.inr (by simpa using h2)
          · exact h m hm
        · intro h m hm
          exact h m (List.mem_cons_of_mem _ hm)

theorem clustersAuxTr_map_fst (all : List MarkerData) (t : ℚ) :
    ∀ (rest : List MarkerData) (used : List String),
      (clustersAuxTr all t rest used).map Prod.fst = clustersAux all t rest used := by
  intro rest
  induction rest with
  | nil => intro used; simp [clustersAuxTr_nil, clustersAux_nil]
  | cons m1 rest ih =>
    intro used
    rw [clustersAuxTr_cons, clustersAux_cons]
    by_cases h1 : m1.id ∈ used
    · rw [if_pos h1, if_pos h1]; exact ih used
    · rw [if_neg h1, if_neg h1]
      simp [ih]

theorem freshNear_iff (t : ℚ) (m1 m2 : MarkerData) (u : List String) :
    freshNear t m1 u m2 = true ↔ m2.id ∉ u ∧ distLt t m1 m2 = true := by
  simp [freshNear]

theorem freshNear_congr (t : ℚ) (m1 m2 : MarkerData) (u : List String) (s : String)
    (h : m2.id ≠ s) : freshNear t m1 (s :: u) m2 = freshNear t m1 u m2 := by
  simp [freshNear, List.contains_cons, h]

theorem innerPass_eq_filter (t : ℚ) (m1 : MarkerData) :
    ∀ (l g : List MarkerData) (u : List String),
      (l.map MarkerData.id).Nodup →
      innerPass t m1 l g u =
        (g ++ l.filter (freshNear t m1 u),
         ((l.filter (freshNear t m1 u)).map MarkerData.id).reverse ++ u) := by
  intro l
  induction l with
  | nil => intro g u _; simp [innerPass_nil]
  | cons m2 rest ih =>
    intro g u hnd
    have hnd' : (rest.map MarkerData.id).Nodup := (List.nodup_cons.mp (by simpa using hnd)).2
    have hm2 : m2.id ∉ rest.map MarkerData.id := (List.nodup_cons.mp (by simpa using hnd)).1
    rw [innerPass_cons]
    by_cases h1 : m2.id ∈ u
    · rw [if_pos h1]
      have hc : freshNear t m1 u m2 = false := by
        simp [freshNear, List.elem_iff, h1]
      rw [List.filter_cons_of_neg (by simp [hc]), ih g u hnd']
    · rw [if_neg h1]
      by_cases h2 : distLt t m1 m2 = true
      · rw [if_pos h2]
        have hc : freshNear t m1 u m2 = true := (freshNear_iff t m1 m2 u).mpr ⟨h1, h2⟩
        rw [List.filter_cons_of_pos (by simp [hc])]
        rw [ih (g ++ [m2]) (m2.id :: u) hnd']
        have hfe : rest.filter (freshNear t m1 (m2.id :: u)) = rest.filter (freshNear t m1 u) := by
          apply List.filter_congr
          intro m hm
          exact freshNear_congr t m1 m u m2.id
            (fun he => hm2 (he ▸ List.mem_map_of_mem MarkerData.id hm))
        rw [hfe]
        simp [Prod.ext_iff, List.append_assoc]
      · rw [if_neg h2]
        have hc : freshNear t m1 u m2 = false := by
          simp only [freshNear, Bool.and_eq_false_iff]
          exact Or.inr (by simpa using h2)
        rw [List.filter_cons_of_neg (by simp [hc]), ih g u hnd']

theorem filter_and_not_perm {α : Type} (A d : α → Bool) (l : List α) :
    List.Perm
      (l.filter (fun a => A a && d a) ++ l.filter (fun a => A a && !(d a)))
      (l.filter A) := by
  induction l with
  | nil => simp
  | cons a l ih =>
    by_cases hA : A a = true
    · by_cases hd : d a = true
      · rw [List.filter_cons_of_pos (by simp [hA, hd]),
          List.filter_cons_of_neg (by simp [hd]), List.filter_cons_of_pos hA,
          List.cons_append]
        exact ih.cons a
      · rw [List.filter_cons_of_neg (by simp [hd]),
          List.filter_cons_of_pos (by simp [hA, hd]), List.filter_cons_of_pos hA]
        exact List.perm_middle.trans (ih.cons a)
    · rw [List.filter_cons_of_neg (by simp [hA]),
        List.filter_cons_of_neg (by simp [hA]), List.filter_cons_of_neg (by simpa using hA)]
      exact ih

theorem clustersAux_join_perm (t : ℚ) :
    ∀ (rest pre : List MarkerData) (used : List String),
      (((pre ++ rest).map MarkerData.id)).Nodup →
      (∀ m ∈ pre, m.id ∈ used) →
      List.Perm (clustersAux (pre ++ rest) t rest used).flatten
        (rest.filter (fun m => !(used.contains m.id))) := by
  intro rest
  induction rest with
  | nil => intro pre used _ _; simp [clustersAux_nil]
  | cons m1 rest' ih =>
    intro pre used hnd hpre
    have hre : (pre ++ [m1]) ++ rest' = pre ++ m1 :: rest' := by simp
    have hmemall : ∀ m ∈ rest', m ∈ pre ++ m1 :: rest' :=
      fun m hm => List.mem_append_right _ (List.mem_cons_of_mem _ hm)
    have hm1all : m1 ∈ pre ++ m1 :: rest' :=
      List.mem_append_right _ (List.mem_cons_self _ _)
    have hnd' : ((m1 :: rest').map MarkerData.id).Nodup :=
      ((List.nodup_append.mp (by simpa using hnd)).2).1
    have hm1rest : m1.id ∉ rest'.map MarkerData.id :=
      (List.nodup_cons.mp (by simpa using hnd')).1
    rw [clustersAux_cons]
    by_cases h1 : m1.id ∈ used
    · rw [if_pos h1, List.filter_cons_of_neg (by simp [List.elem_iff, h1])]
      have := ih (pre ++ [m1]) used (by rw [hre]; exact hnd)
        (by
          intro m hm
          rcases List.mem_append.mp hm with hm | hm
          · exact hpre m hm
          · rcases List.mem_singleton.mp hm with rfl
            exact h1)
      rwa [hre] at this
    · rw [if_neg h1]
      rw [innerPass_eq_filter t m1 (pre ++ m1 :: rest') [m1] (m1.id :: used) hnd]
      have hfilter_all : (pre ++ m1 :: rest').filter (freshNear t m1 (m1.id :: used)) =
          rest'.filter (freshNear t m1 used) := by
        rw [List.filter_append]
        rw [List.filter_eq_nil_iff.mpr (fun m hm => by
          simp [freshNear, List.elem_iff, List.contains_cons]
          intro _
          exact fun hc => absurd (hpre m hm) hc)]
        rw [List.filter_cons_of_neg (by simp [freshNear, List.contains_cons])]
        rw [List.nil_append]
        apply List.filter_congr
        intro m hm
        exact freshNear_congr t m1 m used m1.id
          (fun he => hm1rest (he ▸ List.mem_map_of_mem MarkerData.id hm))
      rw [hfilter_all]
      rw [List.filter_cons_of_pos (by simp [List.elem_iff, h1])]
      rw [List.flatten_cons]
      have hIH := ih (pre ++ [m1])
        (((rest'.filter (freshNear t m1 used)).map MarkerData.id).reverse ++ (m1.id :: used))
        (by rw [hre]; exact hnd)
        (by
          intro m hm
          rcases List.mem_append.mp hm with hm | hm
          · exact List.mem_append_right _ (List.mem_cons_of_mem _ (hpre m hm))
          · rcases List.mem_singleton.mp hm with rfl
            exact List.mem_append_right _ (List.mem_cons_self _ _))
      rw [hre] at hIH
      have hpoint : ∀ m ∈ rest',
          (!(((((rest'.filter (freshNear t m1 used)).map MarkerData.id).reverse ++
              (m1.id :: used)).contains m.id))) =
            ((!(used.contains m.id)) && !(distLt t m1 m)) := by
        intro m hm
        have hmid : m.id ≠ m1.id :=
          fun he => hm1rest (he ▸ List.mem_map_of_mem MarkerData.id hm)
        have hFiff : m ∈ rest'.filter (freshNear t m1 used) ↔
            (m.id ∉ used ∧ distLt t m1 m = true) := by
          rw [List.mem_filter]
          simp [hm, freshNear_iff]
        have hmemF : m.id ∈ (rest'.filter (freshNear t m1 used)).map MarkerData.id ↔
            m ∈ rest'.filter (freshNear t m1 used) := by
          constructor
          · intro h
            obtain ⟨m', hm'F, he⟩ := List.mem_map.mp h
            have hm'rest : m' ∈ rest' := List.mem_of_mem_filter hm'F
            have : m' = m :=
              List.inj_on_of_nodup_map hnd (hmemall m' hm'rest) (hmemall m hm) he
            exact this ▸ hm'F
          · exact List.mem_map_of_mem _
        rw [Bool.eq_iff_iff]
        simp [List.elem_iff, hmemF, hFiff, hmid]
        tauto
      rw [List.singleton_append, List.cons_append]
      apply List.Perm.cons
      refine (List.Perm.append_left _ hIH).trans ?_
      rw [List.filter_congr hpoint]
      exact filter_and_not_perm (fun m => !(used.contains m.id)) (fun m => distLt t m1 m) rest'

theorem clustersAux_group_shape (all : List MarkerData) (t : ℚ) :
    ∀ (rest : List MarkerData) (used : List String) (G : List MarkerData),
      G ∈ clustersAux all t rest used →
      ∃ m1 ex, G = m1 :: ex ∧ m1 ∈ rest ∧
        ∀ m2 ∈ ex, m2 ∈ all ∧ distLt t m1 m2 = true := by
  intro rest
  induction rest with
  | nil => intro used G hG; rw [clustersAux_nil] at hG; cases hG
  | cons m1 rest' ih =>
    intro used G hG
    rw [clustersAux_cons] at hG
    by_cases h1 : m1.id ∈ used
    · rw [if_pos h1] at hG
      obtain ⟨a, ex, he, ha, hall⟩ := ih used G hG
      exact ⟨a, ex, he, List.mem_cons_of_mem _ ha, hall⟩
    · rw [if_neg h1] at hG
      rcases List.mem_cons.mp hG with rfl | hG
      · obtain ⟨ex, hex, hall⟩ := innerPass_shape t m1 all [m1] (m1.id :: used)
        exact ⟨m1, ex, by simpa using hex, List.mem_cons_self _ _, hall⟩
      · obtain ⟨a, ex, he, ha, hall⟩ := ih _ G hG
        exact ⟨a, ex, he, List.mem_cons_of_mem _ ha, hall⟩

theorem clustersAux_sublist (t : ℚ) :
    ∀ (rest pre : List MarkerData) (used : List String),
      (((pre ++ rest).map MarkerData.id)).Nodup →
      (∀ m ∈ pre, m.id ∈ used) →
      (∀ G ∈ clustersAux (pre ++ rest) t rest used, G.Sublist (pre ++ rest)) ∧
      ((clustersAux (pre ++ rest) t rest used).filterMap List.head?).Sublist rest := by
  intro rest
  induction rest with
  | nil => intro pre used _ _; simp [clustersAux_nil]
  | cons m1 rest' ih =>
    intro pre used hnd hpre
    have hre : (pre ++ [m1]) ++ rest' = pre ++ m1 :: rest' := by simp
    have hnd' : ((m1 :: rest').map MarkerData.id).Nodup :=
      ((List.nodup_append.mp (by simpa using hnd)).2).1
    have hm1rest : m1.id ∉ rest'.map MarkerData.id :=
      (List.nodup_cons.mp (by simpa using hnd')).1
    rw [clustersAux_cons]
    by_cases h1 : m1.id ∈ used
    · rw [if_pos h1]
      have hih := ih (pre ++ [m1]) used (by rw [hre]; exact hnd)
        (by
          intro m hm
          rcases List.mem_append.mp hm with hm | hm
          · exact hpre m hm
          · rcases List.mem_singleton.mp hm with rfl
            exact h1)
      rw [hre] at hih
      exact ⟨hih.1, hih.2.trans (List.sublist_cons_self _ _)⟩
    · rw [if_neg h1]
      rw [innerPass_eq_filter t m1 (pre ++ m1 :: rest') [m1] (m1.id :: used) hnd]
      have hfilter_all : (pre ++ m1 :: rest').filter (freshNear t m1 (m1.id :: used)) =
          rest'.filter (freshNear t m1 (m1.id :: used)) := by
        rw [List.filter_append]
        rw [List.filter_eq_nil_iff.mpr (fun m hm => by
          simp [freshNear, List.elem_iff, List.contains_cons]
          intro _
          exact fun hc => absurd (hpre m hm) hc)]
        rw [List.filter_cons_of_neg (by simp [freshNear, List.contains_cons])]
        rw [List.nil_append]
      rw [hfilter_all]
      have hih := ih (pre ++ [m1])
        (((rest'.filter (freshNear t m1 (m1.id :: used))).map MarkerData.id).reverse ++
          (m1.id :: used))
        (by rw [hre]; exact hnd)
        (by
          intro m hm
          rcases List.mem_append.mp hm with hm | hm
          · exact List.mem_append_right _ (List.mem_cons_of_mem _ (hpre m hm))
          · rcases List.mem_singleton.mp hm with rfl
            exact List.mem_append_right _ (List.mem_cons_self _ _))
      rw [hre] at hih
      have hGsub : ([m1] ++ rest'.filter (freshNear t m1 (m1.id :: used))).Sublist
          (pre ++ m1 :: rest') := by
        rw [List.singleton_append]
        exact ((List.filter_sublist _).cons₂ m1).trans
          (List.sublist_append_right pre (m1 :: rest'))
      constructor
      · intro G hG
        rcases List.mem_cons.mp hG with rfl | hG
        · exact hGsub
        · exact hih.1 G hG
      · rw [List.filterMap_cons]
        simp only [List.head?_append, List.head?_cons]
        exact (hih.2.cons₂ m1)

theorem innerPass_ids (t : ℚ) (m1 : MarkerData) :
    ∀ (l g : List MarkerData) (u : List String),
      (g.map MarkerData.id).Nodup → (∀ s ∈ g.map MarkerData.id, s ∈ u) →
      ((innerPass t m1 l g u).1.map MarkerData.id).Nodup ∧
      (∀ s ∈ (innerPass t m1 l g u).1.map MarkerData.id, s ∈ (innerPass t m1 l g u).2) ∧
      (∀ s ∈ (innerPass t m1 l g u).1.map MarkerData.id, s ∈ g.map MarkerData.id ∨ s ∉ u) := by
  intro l
  induction l with
  | nil =>
    intro g u hnd hsub
    rw [innerPass_nil]
    exact ⟨hnd, hsub, fun s hs => Or.inl hs⟩
  | cons m2 rest ih =>
    intro g u hnd hsub
    rw [innerPass_cons]
    by_cases h1 : m2.id ∈ u
    · rw [if_pos h1]; exact ih g u hnd hsub
    · by_cases h2 : distLt t m1 m2 = true
      · rw [if_neg h1, if_pos h2]
        have hnd' : ((g ++ [m2]).map MarkerData.id).Nodup := by
          rw [List.map_append]
          exact List.Nodup.append hnd (List.nodup_singleton _)
            (fun s hs hs2 => h1 ((List.mem_singleton.mp hs2) ▸ hsub s hs))
        have hsub' : ∀ s ∈ (g ++ [m2]).map MarkerData.id, s ∈ m2.id :: u := by
          intro s hs
          rw [List.map_append, List.mem_append] at hs
          rcases hs with hs | hs
          · exact List.mem_cons_of_mem _ (hsub s hs)
          · rcases List.mem_singleton.mp hs with rfl
            exact List.mem_cons_self _ _
        obtain ⟨ha, hb, hc⟩ := ih (g ++ [m2]) (m2.id :: u) hnd' hsub'
        refine ⟨ha, hb, ?_⟩
        intro s hs
        rcases hc s hs with hg | hu
        · rw [List.map_append, List.mem_append] at hg
          rcases hg with hg | hg
          · exact Or.inl hg
          · rcases List.mem_singleton.mp hg with rfl
            exact Or.inr h1
        · exact Or.inr (fun h => hu (List.mem_cons_of_mem _ h))
      · rw [if_neg h1, if_neg h2]; exact ih g u hnd hsub

theorem clustersAux_join_ids (all : List MarkerData) (t : ℚ) :
    ∀ (rest : List MarkerData) (used : List String),
      (((clustersAux all t rest used).flatten.map MarkerData.id)).Nodup ∧
      (∀ s ∈ (clustersAux all t rest used).flatten.map MarkerData.id, s ∉ used) := by
  intro rest
  induction rest with
  | nil => intro used; simp [clustersAux_nil]
  | cons m1 rest' ih =>
    intro used
    rw [clustersAux_cons]
    by_cases h1 : m1.id ∈ used
    · rw [if_pos h1]; exact ih used
    · rw [if_neg h1]
      obtain ⟨hPnd, hPsub, hPnew⟩ := innerPass_ids t m1 all [m1] (m1.id :: used)
        (List.nodup_singleton _)
        (fun s hs => (List.mem_singleton.mp (by simpa using hs)) ▸ List.mem_cons_self _ _)
      obtain ⟨hRnd, hRnot⟩ := ih (innerPass t m1 all [m1] (m1.id :: used)).2
      rw [List.flatten_cons, List.map_append]
      constructor
      · exact List.Nodup.append hPnd hRnd
          (fun s hsP hsR => hRnot s hsR (hPsub s hsP))
      · intro s hs
        rcases List.mem_append.mp hs with hs | hs
        · rcases hPnew s hs with hg | hu
          · rcases List.mem_singleton.mp (by simpa using hg) with rfl
            exact h1
          · exact fun h => hu (List.mem_cons_of_mem _ h)
        · exact fun h => hRnot s hs
            (innerPass_used_mono t m1 all [m1] (m1.id :: used) s (List.mem_cons_of_mem _ h))

theorem clusters_mem_input (markers : List MarkerData) (t : ℚ) :
    ∀ G ∈ clusters markers t, ∀ m ∈ G, m ∈ markers := by
  intro G hG m hm
  obtain ⟨a, ex, rfl, ha, hall⟩ :=
    clustersAux_group_shape markers t markers [] G hG
  rcases List.mem_cons.mp hm with rfl | hm
  · exact ha
  · exact (hall m hm).1

theorem JSNum.sub_nan_left (b : JSNum) : JSNum.sub .nan b = .nan := by cases b <;> rfl

theorem JSNum.sub_nan_right (a : JSNum) : JSNum.sub a .nan = .nan := by cases a <;> rfl

theorem JSNum.mul_nan_left (b : JSNum) : JSNum.mul .nan b = .nan := by cases b <;> rfl

theorem JSNum.add_nan_left (b : JSNum) : JSNum.add .nan b = .nan := by cases b <;> rfl

theorem JSNum.add_nan_right (a : JSNum) : JSNum.add a .nan = .nan := by cases a <;> rfl

theorem distSq_nan_left (m1 m2 : MarkerData) (h : m1.x = .nan ∨ m1.y = .nan) :
    distSq m1 m2 = .nan := by
  rcases h with h | h
  · rw [distSq, h, JSNum.sub_nan_left, JSNum.mul_nan_left, JSNum.add_nan_left]
  · rw [distSq, h, JSNum.sub_nan_left, JSNum.mul_nan_left, JSNum.add_nan_right]

theorem distSq_nan_right (m1 m2 : MarkerData) (h : m2.x = .nan ∨ m2.y = .nan) :
    distSq m1 m2 = .nan := by
  rcases h with h | h
  · rw [distSq, h, JSNum.sub_nan_right, JSNum.mul_nan_left, JSNum.add_nan_left]
  · rw [distSq, h, JSNum.sub_nan_right, JSNum.mul_nan_left, JSNum.add_nan_right]

theorem distLt_nan_left (t : ℚ) (m1 m2 : MarkerData) (h : m1.x = .nan ∨ m1.y = .nan) :
    distLt t m1 m2 = false := by
  rw [distLt, distSq_nan_left m1 m2 h]

theorem distLt_nan_right (t : ℚ) (m1 m2 : MarkerData) (h : m2.x = .nan ∨ m2.y = .nan) :
    distLt t m1 m2 = false := by
  rw [distLt, distSq_nan_right m1 m2 h]

theorem clustersAux_nan_mem (all : List MarkerData) (t : ℚ)
    (hnd : (all.map MarkerData.id).Nodup) (m : MarkerData) (hmall : m ∈ all)
    (hnan : m.x = .nan ∨ m.y = .nan) :
    ∀ (rest : List MarkerData) (used : List String),
      (∀ x ∈ rest, x ∈ all) → m ∈ rest → m.id ∉ used →
      [m] ∈ clustersAux all t rest used := by
  intro rest
  induction rest with
  | nil => intro used _ hmem _; cases hmem
  | cons m1 rest' ih =>
    intro used hsub hmem hnotu
    have hsub' : ∀ x ∈ rest', x ∈ all := fun x hx => hsub x (List.mem_cons_of_mem _ hx)
    by_cases hm1 : m1 = m
    · subst hm1
      rw [clustersAux_cons, if_neg hnotu,
        innerPass_no_claim t m1 all [m1] (m1.id :: used)
          (fun m2 _ => distLt_nan_left t m1 m2 hnan)]
      exact List.mem_cons_self _ _
    · have hmem' : m ∈ rest' := by
        rcases List.mem_cons.mp hmem with he | h
        · exact absurd he.symm hm1
        · exact h
      rw [clustersAux_cons]
      by_cases h1 : m1.id ∈ used
      · rw [if_pos h1]; exact ih used hsub' hmem' hnotu
      · rw [if_neg h1]
        refine List.mem_cons_of_mem _ (ih _ hsub' hmem' ?_)
        intro hin
        rcases innerPass_used_src t m1 all [m1] (m1.id :: used) m.id hin with h | ⟨m2, hm2, he, hd⟩
        · rcases List.mem_cons.mp h with he | h
          · exact hm1 (List.inj_on_of_nodup_map hnd
              (hsub m1 (List.mem_cons_self _ _)) hmall he.symm)
          · exact hnotu h
        · have he2 : m2 = m := List.inj_on_of_nodup_map hnd hm2 hmall he
          rw [he2, distLt_nan_right t m1 m hnan] at hd
          cases hd

theorem clustersAuxTr_entry (all : List MarkerData) (t : ℚ) :
    ∀ (rest : List MarkerData) (used : List String) (p : List MarkerData × List String),
      p ∈ clustersAuxTr all t rest used →
      ∃ m1, p.1 = (innerPass t m1 all [m1] (m1.id :: p.2)).1 ∧
        p.1.head? = some m1 ∧ m1.id ∉ p.2 := by
  intro rest
  induction rest with
  | nil => intro used p hp; rw [clustersAuxTr_nil] at hp; cases hp
  | cons m1 rest' ih =>
    intro used p hp
    rw [clustersAuxTr_cons] at hp
    by_cases h1 : m1.id ∈ used
    · rw [if_pos h1] at hp; exact ih used p hp
    · rw [if_neg h1] at hp
      rcases List.mem_cons.mp hp with rfl | hp
      · refine ⟨m1, rfl, ?_, h1⟩
        obtain ⟨ex, hex, -⟩ := innerPass_shape t m1 all [m1] (m1.id :: used)
        simp [hex]
      · exact ih _ p hp

/-- Justification that the square-root-free comparison used by `distLt`
agrees with the JS test `Math.sqrt d < t` for a finite nonnegative
radicand. -/
theorem sqrt_lt_iff_sq_lt (d t : ℚ) :
    (Real.sqrt (d : ℝ) < (t : ℝ)) ↔ (0 < t ∧ d < t * t) := by
  constructor
  · intro h
    have ht : (0:ℝ) < t := lt_of_le_of_lt (Real.sqrt_nonneg _) h
    have h2 : (d:ℝ) < (t:ℝ) ^ 2 := (Real.sqrt_lt' ht).mp h
    rw [sq] at h2
    exact ⟨by exact_mod_cast ht, by exact_mod_cast h2⟩
  · rintro ⟨ht, hlt⟩
    have ht' : (0:ℝ) < t := by exact_mod_cast ht
    apply (Real.sqrt_lt' ht').mpr
    rw [sq]
    exact_mod_cast hlt

/-- On finite squared distances, `distLt` is exactly the source's
comparison of the square root against the threshold. -/
theorem distLt_iff_sqrt_lt (t : ℚ) (m1 m2 : MarkerData) (d : ℚ)
    (hd : distSq m1 m2 = .num d) :
    (distLt t m1 m2 = true ↔ Real.sqrt (d:ℝ) < (t:ℝ)) := by
  rw [sqrt_lt_iff_sq_lt d t]
  simp only [distLt, hd]
  simp

theorem distLt_exA_exB : distLt 12 exA exB = true := by
  norm_num [distLt, distSq, JSNum.sub, JSNum.mul, JSNum.add, exA, exB, mk]

theorem distLt_exA_exC : distLt 12 exA exC = false := by
  norm_num [distLt, distSq, JSNum.sub, JSNum.mul, JSNum.add, exA, exC, mk]

theorem distLt_exB_exC : distLt 12 exB exC = true := by
  norm_num [distLt, distSq, JSNum.sub, JSNum.mul, JSNum.add, exB, exC, mk]

theorem distLt_exC_exA : distLt 12 exC exA = false := by
  norm_num [distLt, distSq, JSNum.sub, JSNum.mul, JSNum.add, exC, exA, mk]

theorem distLt_exC_exB : distLt 12 exC exB = true := by
  norm_num [distLt, distSq, JSNum.sub, JSNum.mul, JSNum.add, exC, exB, mk]

theorem clusters_ex3 : clusters [exA, exB, exC] 12 = [[exA, exB], [exC]] := by
  have h1 := distLt_exA_exB
  have h2 := distLt_exA_exC
  have h3 := distLt_exC_exA
  have h4 := distLt_exC_exB
  simp only [exA, exB, exC, mk] at h1 h2 h3 h4 ⊢
  simp +decide [clusters, clustersAux, innerPass, h1, h2, h3, h4]

theorem clustersWithUsed_ex3 :
    clustersWithUsed [exA, exB, exC] 12 = [([exA, exB], []), ([exC], ["b", "a"])] := by
  have h1 := distLt_exA_exB
  have h2 := distLt_exA_exC
  have h3 := distLt_exC_exA
  have h4 := distLt_exC_exB
  simp only [exA, exB, exC, mk] at h1 h2 h3 h4 ⊢
  simp +decide [clustersWithUsed, clustersAuxTr, innerPass, h1, h2, h3, h4]

theorem clusters_dup : clusters [dupA, dupB] 12 = [[dupA]] := by
  simp only [dupA, dupB, mk]
  simp +decide [clusters, clustersAux, innerPass]

theorem clusters_nan5 : clusters [dupA, nanB] 12 = [[dupA]] := by
  simp only [dupA, nanB, mk]
  simp +decide [clusters, clustersAux, innerPass]

theorem distLt_cxX_cxA : distLt 12 cxX cxA = false := by
  norm_num [distLt, distSq, JSNum.sub, JSNum.mul, JSNum.add, cxX, cxA, mk]

theorem distLt_cxX_cxB : distLt 12 cxX cxB = true := by
  norm_num [distLt, distSq, JSNum.sub, JSNum.mul, JSNum.add, cxX, cxB, mk]

theorem clusters_cx10 : clusters [cxX, cxA, cxB] 12 = [[cxX, cxB]] := by
  have h1 := distLt_cxX_cxA
  have h2 := distLt_cxX_cxB
  simp only [cxX, cxA, cxB, mk] at h1 h2 ⊢
  simp +decide [clusters, clustersAux, innerPass, h1, h2]

/-- C1 counterexample: with two markers sharing the id "a", the second
input marker appears in no output group at all, so the partition claim
fails as stated (it quantifies over every input marker list). -/
theorem C1_partition_counterexample :
    dupB ∈ [dupA, dupB] ∧ ∀ G ∈ clusters [dupA, dupB] 12, dupB ∉ G := by
  refine ⟨by simp, ?_⟩
  intro G hG
  rw [clusters_dup] at hG
  rcases List.mem_singleton.mp hG with rfl
  intro hmem
  rcases List.mem_singleton.mp hmem with he
  have hx := congrArg MarkerData.x he
  simp only [dupB, dupA, mk] at hx
  rw [JSNum.num.injEq] at hx
  norm_num at hx

/-- C1 (amended): provided the marker ids are pairwise distinct, the
clustering routine returns non-empty groups whose concatenation is a
permutation of the input, i.e. every input marker appears in exactly one
output group, with no duplicates and no omissions. -/
theorem C1_partition_of_nodup_ids (markers : List MarkerData) (t : ℚ)
    (h : (markers.map MarkerData.id).Nodup) :
    (∀ G ∈ clusters markers t, G ≠ []) ∧
    List.Perm (clusters markers t).flatten markers := by
  constructor
  · intro G hG
    obtain ⟨a, ex, rfl, -, -⟩ := clustersAux_group_shape markers t markers [] G hG
    simp
  · have hperm := clustersAux_join_perm t markers [] [] (by simpa using h) (by simp)
    simpa using hperm

/-- C1 witness: the partition theorem applied to the three-marker example. -/
theorem C1_partition_witness :
    (∀ G ∈ clusters [exA, exB, exC] 12, G ≠ []) ∧
    List.Perm (clusters [exA, exB, exC] 12).flatten [exA, exB, exC] :=
  C1_partition_of_nodup_ids [exA, exB, exC] 12 (by decide)

/-- C2 counterexample: in the spec's own three-marker example the group
containing only exC is a singleton, yet exC lies strictly within the
threshold of exB, a marker already claimed by an existing group at the
time exC was processed (the recorded used-set at that moment contains
the id of exB).  This refutes the claimed iff as stated. -/
theorem C2_singleton_iff_counterexample :
    ([exC], ["b", "a"]) ∈ clustersWithUsed [exA, exB, exC] 12 ∧
    exB.id ∈ ["b", "a"] ∧ exB ∈ [exA, exB, exC] ∧ distLt 12 exC exB = true ∧
    (clustersWithUsed [exA, exB, exC] 12).map Prod.fst = clusters [exA, exB, exC] 12 := by
  refine ⟨?_, by simp [exB, mk], by simp, distLt_exC_exB, ?_⟩
  · rw [clustersWithUsed_ex3]; simp
  · exact clustersAuxTr_map_fst [exA, exB, exC] 12 [exA, exB, exC] []

/-- C2 (amended): an output group is a singleton if and only if, at the
moment its anchor was reached by the outer pass, no marker whose id was
still unclaimed (other than the anchor itself) lay strictly within the
proximity threshold of the anchor. -/
theorem C2_singleton_iff_amended (markers : List MarkerData) (t : ℚ)
    (p : List MarkerData × List String) (hp : p ∈ clustersWithUsed markers t)
    (m1 : MarkerData) (hm1 : p.1.head? = some m1) :
    (p.1.length = 1 ↔
      ∀ m2 ∈ markers, m2.id ∉ p.2 → m2.id ≠ m1.id → distLt t m1 m2 = false) := by
  obtain ⟨a, hfst, hhead, hnot⟩ := clustersAuxTr_entry markers t markers [] p hp
  rw [hm1] at hhead
  injection hhead with hhead
  subst hhead
  rw [hfst]
  have hlen := innerPass_len_iff t m1 markers [m1] (m1.id :: p.2)
  rw [List.length_singleton] at hlen
  rw [hlen]
  constructor
  · intro h m2 hm2 hnu hne
    rcases h m2 hm2 with h | h
    · rcases List.mem_cons.mp h with he | he
      · exact absurd he hne
      · exact absurd he hnu
    · exact h
  · intro h m2 hm2
    by_cases he : m2.id = m1.id
    · exact Or.inl (he ▸ List.mem_cons_self _ _)
    · by_cases hu : m2.id ∈ p.2
      · exact Or.inl (List.mem_cons_of_mem _ hu)
      · exact Or.inr (h m2 hm2 hu he)

/-- C2 witness: the amended iff applied to the singleton group of the
three-marker example. -/
theorem C2_singleton_iff_witness :
    ([exC].length = 1 ↔
      ∀ m2 ∈ [exA, exB, exC], m2.id ∉ ["b", "a"] → m2.id ≠ exC.id →
        distLt 12 exC m2 = false) :=
  C2_singleton_iff_amended [exA, exB, exC] 12 ([exC], ["b", "a"])
    (by rw [clustersWithUsed_ex3]; simp) exC rfl

/-- C3: with markers exA at (0,0), exB at (10,0), exC at (20,0) and
threshold 12, the output is the two groups [exA, exB] and [exC], not the
single transitive group, even though exB and exC are also within the
threshold of each other; exC is only compared against the anchor exA. -/
theorem C3_non_transitivity :
    clusters [exA, exB, exC] 12 = [[exA, exB], [exC]] ∧
    clusters [exA, exB, exC] 12 ≠ [[exA, exB, exC]] ∧
    distLt 12 exA exB = true ∧ distLt 12 exB exC = true ∧
    distLt 12 exA exC = false := by
  refine ⟨clusters_ex3, ?_, distLt_exA_exB, distLt_exB_exC, distLt_exA_exC⟩
  rw [clusters_ex3]
  simp

/-- C4: every member of an output group other than the anchor passed the
strict distance test against the anchor at threshold `CLUSTER_THRESHOLD`
(the constant 12); a marker at squared distance 144 or more from the
anchor is never added. -/
theorem C4_anchor_radius (markers : List MarkerData) (G : List MarkerData)
    (hG : G ∈ clusters markers CLUSTER_THRESHOLD) (m1 : MarkerData)
    (hm1 : G.head? = some m1) (m2 : MarkerData) (hm2 : m2 ∈ G.tail) :
    distLt CLUSTER_THRESHOLD m1 m2 = true := by
  obtain ⟨a, ex, rfl, -, hall⟩ :=
    clustersAux_group_shape markers CLUSTER_THRESHOLD markers [] G hG
  simp only [List.head?_cons, Option.some.injEq] at hm1
  subst hm1
  exact (hall m2 (by simpa using hm2)).2

/-- C4 witness: in the three-marker example, the non-anchor member exB of
the first group is strictly within the threshold of its anchor exA. -/
theorem C4_anchor_radius_witness : distLt CLUSTER_THRESHOLD exA exB = true :=
  C4_anchor_radius [exA, exB, exC] [exA, exB]
    (by rw [show clusters [exA, exB, exC] CLUSTER_THRESHOLD = [[exA, exB], [exC]] from
      clusters_ex3]; simp) exA rfl exB (by simp)

/-- C5 counterexample: a marker with a NaN coordinate that shares its id
with an earlier marker appears in no output group at all, rather than
becoming its own singleton group, so the claim fails on some finite
marker lists. -/
theorem C5_nan_counterexample :
    nanB.x = JSNum.nan ∧ clusters [dupA, nanB] 12 = [[dupA]] ∧
    ∀ G ∈ clusters [dupA, nanB] 12, G ≠ [nanB] := by
  refine ⟨rfl, clusters_nan5, ?_⟩
  intro G hG
  rw [clusters_nan5] at hG
  rcases List.mem_singleton.mp hG with rfl
  intro he
  rw [List.cons.injEq] at he
  have hx := congrArg MarkerData.x he.1
  simp [dupA, nanB, mk] at hx

/-- C5 (amended): provided the marker ids are pairwise distinct, a marker
with a NaN coordinate ends up as its own singleton group: every distance
comparison involving it is a comparison against NaN and therefore false,
so it is never claimed and claims nobody.  The embedding is a total
function, matching the absence of error conditions in the source. -/
theorem C5_nan_singleton_of_nodup_ids (markers : List MarkerData) (t : ℚ)
    (h : (markers.map MarkerData.id).Nodup) (m : MarkerData) (hm : m ∈ markers)
    (hx : m.x = JSNum.nan ∨ m.y = JSNum.nan) :
    [m] ∈ clusters markers t :=
  clustersAux_nan_mem markers t h m hm hx markers [] (fun x hx => hx) hm (by simp)

/-- C5 witness: a NaN marker with a fresh id forms its own singleton
group next to an ordinary marker. -/
theorem C5_nan_singleton_witness : [wN] ∈ clusters [exA, wN] 12 :=
  C5_nan_singleton_of_nodup_ids [exA, wN] 12 (by decide) wN (by simp) (Or.inl rfl)

/-- C6: the clustering routine is deterministic — identical marker lists
and identical thresholds give identical outputs.  The embedding is a
pure total function; the source routine reads no state other than its
arguments and the constant threshold. -/
theorem C6_deterministic (markers1 markers2 : List MarkerData) (t1 t2 : ℚ)
    (hm : markers1 = markers2) (ht : t1 = t2) :
    clusters markers1 t1 = clusters markers2 t2 := by
  rw [hm, ht]

/-- C6 witness: determinism instantiated at the three-marker example. -/
theorem C6_deterministic_witness :
    clusters [exA, exB, exC] 12 = clusters [exA, exB, exC] 12 :=
  C6_deterministic [exA, exB, exC] [exA, exB, exC] 12 12 rfl rfl

/-- C8: the marker list the clusters memo constructs from the history —
history.slice(1, 11) mapped to markers — always has length at most 10;
this is the list clustersMemo hands to the clustering routine. -/
theorem C8_caller_bound (sinF cosF : ℕ → ℚ) (history : List HistoryEntry) :
    (historyMarkers sinF cosF history).length ≤ 10 := by
  rw [historyMarkers, List.length_mapIdx, List.length_take]
  omega

/-- C9: with pairwise-distinct marker ids, every output group is a
sublist of the input (members keep their relative input order and the
anchor, being first, is the earliest-in-input member), and the list of
group anchors is itself a sublist of the input (groups appear in the
input order of their anchors). -/
theorem C9_ordering_invariant (markers : List MarkerData) (t : ℚ)
    (h : (markers.map MarkerData.id).Nodup) :
    (∀ G ∈ clusters markers t, G.Sublist markers) ∧
    ((clusters markers t).filterMap List.head?).Sublist markers := by
  have hsub := clustersAux_sublist t markers [] [] (by simpa using h) (by simp)
  simpa using hsub

/-- C9 witness: the ordering invariant applied to the three-marker
example. -/
theorem C9_ordering_witness :
    (∀ G ∈ clusters [exA, exB, exC] 12, G.Sublist [exA, exB, exC]) ∧
    ((clusters [exA, exB, exC] 12).filterMap List.head?).Sublist [exA, exB, exC] :=
  C9_ordering_invariant [exA, exB, exC] 12 (by decide)

/-- C10 counterexample: with the duplicated id "a" on the markers cxA
(far from the anchor cxX) and cxB (close to it, later in the input), the
later occurrence cxB is claimed into the first group and it is the
earlier occurrence cxA that vanishes from the output — refuting the
claim that the later occurrence appears in no output group. -/
theorem C10_later_occurrence_counterexample :
    cxA.id = cxB.id ∧ clusters [cxX, cxA, cxB] 12 = [[cxX, cxB]] ∧
    cxB ∈ (clusters [cxX, cxA, cxB] 12).flatten ∧
    cxA ∉ (clusters [cxX, cxA, cxB] 12).flatten := by
  have hax : cxA ≠ cxX := by
    intro h
    have hid := congrArg MarkerData.id h
    simp [cxA, cxX, mk] at hid
  have hab : cxA ≠ cxB := by
    intro h
    have hx := congrArg MarkerData.x h
    simp only [cxA, cxB, mk] at hx
    rw [JSNum.num.injEq] at hx
    norm_num at hx
  refine ⟨rfl, clusters_cx10, ?_, ?_⟩
  · rw [clusters_cx10]; simp
  · rw [clusters_cx10]
    simp [hax, hab]

/-- C10 (amended): no id ever appears twice across the output groups, so
when the input contains two markers with the same id at least one of the
two occurrences is omitted and the output is strictly shorter than the
input; the partition property therefore holds only under pairwise
distinct ids.  (Which occurrence survives is whichever is claimed first,
not necessarily the earlier one — see the counterexample.) -/
theorem C10_output_ids_nodup (markers : List MarkerData) (t : ℚ) :
    ((clusters markers t).flatten.map MarkerData.id).Nodup ∧
    (¬ (markers.map MarkerData.id).Nodup →
      (clusters markers t).flatten.length < markers.length) := by
  have hids := clustersAux_join_ids markers t markers []
  have hnd1 : ((clusters markers t).flatten.map MarkerData.id).Nodup := hids.1
  refine ⟨hnd1, ?_⟩
  intro hdup
  have hsub : ∀ s ∈ (clusters markers t).flatten.map MarkerData.id,
      s ∈ markers.map MarkerData.id := by
    intro s hs
    obtain ⟨m, hm, rfl⟩ := List.mem_map.mp hs
    obtain ⟨G, hG, hmG⟩ := List.mem_flatten.mp hm
    exact List.mem_map_of_mem _ (clusters_mem_input markers t G hG m hmG)
  classical
  have hcard : ((clusters markers t).flatten.map MarkerData.id).toFinset.card ≤
      (markers.map MarkerData.id).toFinset.card := by
    apply Finset.card_le_card
    intro s hs
    rw [List.mem_toFinset] at hs ⊢
    exact hsub s hs
  rw [List.card_toFinset, List.card_toFinset] at hcard
  rw [List.Nodup.dedup hnd1] at hcard
  have hlt : (markers.map MarkerData.id).dedup.length <
      (markers.map MarkerData.id).length := by
    have hsubl := List.dedup_sublist (markers.map MarkerData.id)
    rcases lt_or_eq_of_le hsubl.length_le with h | h
    · exact h
    · exact absurd (List.dedup_eq_self.mp (hsubl.eq_of_length h)) hdup
  have hfin := lt_of_le_of_lt hcard hlt
  rwa [List.length_map, List.length_map] at hfin

/-- C10 witness: on a duplicated-id input the output ids are
duplicate-free and the output is strictly shorter than the input. -/
theorem C10_output_ids_witness :
    ((clusters [dupA, dupB] 12).flatten.map MarkerData.id).Nodup ∧
    (clusters [dupA, dupB] 12).flatten.length < ([dupA, dupB] : List MarkerData).length :=
  ⟨(C10_output_ids_nodup [dupA, dupB] 12).1,
   (C10_output_ids_nodup [dupA, dupB] 12).2 (by decide)⟩

end SmartAIMap
